import Mathlib

/-!
Verification development for the ROD marriage-license extraction service
(`trocr_service.py`).

The downstream core of the service is embedded shallowly:

* Python strings are `List Char` (ASCII semantics; the service's regexes and
  string predicates are modelled on ASCII, which is the alphabet all the
  claims and the repository's patterns use).
* Python floats are `ℚ`; the only float operations the core performs are
  additions and subtractions of decimal constants and `min`/`max`, which are
  exact at these values.
* Python `re` is embedded by a small backtracking engine `reRuns` over an
  abstract syntax `RE`.  Alternatives are produced in exactly Python's
  backtracking preference order (alternation left first, greedy repetition
  longest first, lazy repetition shortest first), so the head of the result
  list is the match `re.search` reports at a given start position.  All
  repetitions occurring in the service's patterns are over single-character
  classes, which `RE.starCls` captures directly.
* Fallible code (the reachable `AttributeError` in the date normalizer,
  see `dateField`) is returned as `Option`: `none` models a raised exception.
-/

/-- Whitespace as matched by Python `\s` and stripped by `str.strip()`
(ASCII fragment). -/
def pyIsSpace (c : Char) : Bool :=
  c == ' ' || c == '\t' || c == '\n' || c == '\r' || c == '\x0b' || c == '\x0c'

/-- Word characters for Python `\b` (ASCII fragment of `\w`). -/
def isWordChar (c : Char) : Bool := c.isAlphanum || c == '_'

/-- Python `str.strip()`: drop whitespace from both ends. -/
def strTrim (l : List Char) : List Char :=
  ((l.dropWhile pyIsSpace).reverse.dropWhile pyIsSpace).reverse

/-- Python `str.zfill(2)`: left-pad with `'0'` to length 2. -/
def zfill2 (l : List Char) : List Char := List.replicate (2 - l.length) '0' ++ l

/-- Python `needle in hay`: contiguous-substring test. -/
def hasSub (needle : List Char) : List Char → Bool
  | [] => needle.isEmpty
  | c :: rest => needle.isPrefixOf (c :: rest) || hasSub needle rest

/-- Python `str.split()`: split on whitespace runs, dropping empty pieces. -/
def pySplitWs (l : List Char) : List (List Char) :=
  (l.splitOnP (fun c => pyIsSpace c)).filter (fun t => !t.isEmpty)

/-- Regular-expression abstract syntax for the service's patterns.  Every
repetition in the source patterns ranges over a single-character class, so
repetition is provided as `starCls` (with a greediness flag) rather than a
general star. -/
inductive RE where
  | eps : RE
  | cls (p : Char → Bool) : RE
  | starCls (greedy : Bool) (p : Char → Bool) : RE
  | cat (a b : RE) : RE
  | alt (a b : RE) : RE
  | group (n : Nat) (a : RE) : RE
  | wordB : RE

/-- Captured groups: association list from group number to captured text,
most recent first. -/
abbrev Caps := List (Nat × List Char)

/-- The contiguous slice `[a, b)` of `s`. -/
def strSlice (s : List Char) (a b : Nat) : List Char := (s.drop a).take (b - a)

/-- Python `\b`: the position `i` lies between a word and a non-word
character (string ends count as non-word). -/
def wordBoundary (s : List Char) (i : Nat) : Bool :=
  (match i with
   | 0 => false
   | n + 1 => ((s[n]?).map isWordChar).getD false)
    != ((s[i]?).map isWordChar).getD false

/-- All ways `r` can match a prefix of `s.drop i`, as end positions paired
with the captures, in Python's backtracking preference order (the head is
the alternative Python's engine commits to first). -/
def reRuns : RE → List Char → Nat → Caps → List (Nat × Caps)
  | .eps, _, i, cs => [(i, cs)]
  | .cls p, s, i, cs =>
      match s.drop i with
      | [] => []
      | c :: _ => if p c then [(i + 1, cs)] else []
  | .starCls g p, s, i, cs =>
      let m := ((s.drop i).takeWhile p).length
      if g then (List.range (m + 1)).map (fun k => (i + (m - k), cs))
      else (List.range (m + 1)).map (fun k => (i + k, cs))
  | .cat a b, s, i, cs => (reRuns a s i cs).flatMap (fun jc => reRuns b s jc.1 jc.2)
  | .alt a b, s, i, cs => reRuns a s i cs ++ reRuns b s i cs
  | .group n a, s, i, cs =>
      (reRuns a s i cs).map (fun jc => (jc.1, (n, strSlice s i jc.1) :: jc.2))
  | .wordB, s, i, cs => if wordBoundary s i then [(i, cs)] else []

/-- Try start positions `i, i+1, ...` (at most `k` of them); at the first
position where the pattern matches, return `(start, end, captures)` of the
preferred match.  This is `re.search`'s leftmost-match scan. -/
def searchAux (r : RE) (s : List Char) : Nat → Nat → Option (Nat × Nat × Caps)
  | 0, _ => none
  | k + 1, i =>
      match reRuns r s i [] with
      | jc :: _ => some (i, jc.1, jc.2)
      | [] => searchAux r s k (i + 1)

/-- Python `re.search`. -/
def reSearch (r : RE) (s : List Char) : Option (Nat × Nat × Caps) :=
  searchAux r s (s.length + 1) 0

/-- Captured text of group `n`, if the group participated in the match. -/
def capOf (cs : Caps) (n : Nat) : Option (List Char) :=
  (cs.find? (fun e => e.1 == n)).map (fun e => e.2)

/-- Captured text of group `n`, with Python `re.findall`'s convention that a
non-participating group reads as the empty string. -/
def capOr (cs : Caps) (n : Nat) : List Char := (capOf cs n).getD []

/-- Python `re.findall` for a single-group pattern: repeated non-overlapping
searches, collecting group 1; an empty match advances by one position. -/
def findAllAux (r : RE) (s : List Char) : Nat → Nat → List (List Char)
  | 0, _ => []
  | k + 1, pos =>
      match searchAux r s (s.length + 1 - pos) pos with
      | none => []
      | some (a, b, cs) =>
          capOr cs 1 :: findAllAux r s k (if a < b then b else b + 1)

/-- Python `re.findall(pattern, s)` restricted to group 1. -/
def reFindAll (r : RE) (s : List Char) : List (List Char) :=
  findAllAux r s (s.length + 2) 0

/-- Case-insensitive literal character (all the service's searches pass
`re.IGNORECASE`); `c` is stored lower-cased. -/
def rlit (c : Char) : RE := .cls (fun d => d.toLower == c)

/-- Case-insensitive literal word. -/
def rstr (w : String) : RE :=
  (w.data.map Char.toLower).foldr (fun c r => .cat (rlit c) r) .eps

/-- Sequence of pattern pieces. -/
def rcat (l : List RE) : RE := l.foldr .cat .eps

/-- Greedy `?`. -/
def ropt (r : RE) : RE := .alt r .eps

/-- Greedy `+` over a character class. -/
def plusCls (p : Char → Bool) : RE := .cat (.cls p) (.starCls true p)

/-- Lazy `+?` over a character class. -/
def lazyPlusCls (p : Char → Bool) : RE := .cat (.cls p) (.starCls false p)

/-- Greedy `\s*`. -/
def wsStar : RE := .starCls true pyIsSpace

/-- Class `[a-z0-9\-]` under `re.IGNORECASE` (so letters of either case). -/
def alnumDash (c : Char) : Bool := c.isAlpha || c.isDigit || c == '-'

/-- Class `[A-Za-z]`. -/
def letterCls (c : Char) : Bool := c.isAlpha

/-- Class `[A-Za-z\s]`. -/
def letterSpace (c : Char) : Bool := c.isAlpha || pyIsSpace c

/-- Class `[, ]`. -/
def commaSpace (c : Char) : Bool := c == ',' || c == ' '

/-- Class `[:#]`. -/
def colonHash (c : Char) : Bool := c == ':' || c == '#'

/-- Class `[-\/.]`. -/
def dateSep (c : Char) : Bool := c == '-' || c == '/' || c == '.'

/-- Class `\d`. -/
def digitCls (c : Char) : Bool := c.isDigit

/-- Greedy `\d{1,2}`. -/
def digits12 : RE := .cat (.cls digitCls) (ropt (.cls digitCls))

/-- Exactly `\d{4}`. -/
def digits4 : RE := rcat [.cls digitCls, .cls digitCls, .cls digitCls, .cls digitCls]

/-- Everything of `application\s*no\.?\s*([a-z0-9\-]+)` before the group. -/
def licensePattern1Pre : RE :=
  rcat [rstr "application", wsStar, rstr "no", ropt (rlit '.'), wsStar]

/-- Source license pattern 1: `application\s*no\.?\s*([a-z0-9\-]+)`. -/
def licensePattern1 : RE := .cat licensePattern1Pre (.group 1 (plusCls alnumDash))

/-- Everything of `license\s*(?:no\.|number)\s*[:#]?\s*([a-z0-9\-]+)` before
the group. -/
def licensePattern2Pre : RE :=
  rcat [rstr "license", wsStar, .alt (rstr "no.") (rstr "number"), wsStar,
        ropt (.cls colonHash), wsStar]

/-- Source license pattern 2: `license\s*(?:no\.|number)\s*[:#]?\s*([a-z0-9\-]+)`. -/
def licensePattern2 : RE := .cat licensePattern2Pre (.group 1 (plusCls alnumDash))

/-- Everything of `no\.?\s*([0-9]+)` before the group. -/
def licensePattern3Pre : RE := rcat [rstr "no", ropt (rlit '.'), wsStar]

/-- Source license pattern 3: `no\.?\s*([0-9]+)`. -/
def licensePattern3 : RE := .cat licensePattern3Pre (.group 1 (plusCls digitCls))

/-- Terminator `(?:,|\sof|\sdesir|\sdo\b)` of name pattern 1. -/
def nameTerminator1 : RE :=
  .alt (rlit ',')
    (.alt (rcat [.cls pyIsSpace, rstr "of"])
      (.alt (rcat [.cls pyIsSpace, rstr "desir"])
        (rcat [.cls pyIsSpace, rstr "do", .wordB])))

/-- Terminator `(?:,|\sof|\sdo\b)` of name patterns 2 and 3. -/
def nameTerminator2 : RE :=
  .alt (rlit ',')
    (.alt (rcat [.cls pyIsSpace, rstr "of"])
      (rcat [.cls pyIsSpace, rstr "do", .wordB]))

/-- Source name pattern 1: `I[, ]+([A-Za-z\s]+?)(?:,|\sof|\sdesir|\sdo\b)`. -/
def namePattern1 : RE :=
  rcat [rlit 'i', plusCls commaSpace, .group 1 (lazyPlusCls letterSpace),
        nameTerminator1]

/-- Source name pattern 2: `Miss\s+([A-Za-z\s]+?)(?:,|\sof|\sdo\b)`. -/
def namePattern2 : RE :=
  rcat [rstr "miss", plusCls pyIsSpace, .group 1 (lazyPlusCls letterSpace),
        nameTerminator2]

/-- Source name pattern 3: `Mr\.?\s+([A-Za-z\s]+?)(?:,|\sof|\sdo\b)`. -/
def namePattern3 : RE :=
  rcat [rstr "mr", ropt (rlit '.'), plusCls pyIsSpace,
        .group 1 (lazyPlusCls letterSpace), nameTerminator2]

/-- Source date pattern 1: `day\s+of\s+([A-Za-z]+)\s+(\d{1,2})?,?\s*(\d{4})`. -/
def datePattern1 : RE :=
  rcat [rstr "day", plusCls pyIsSpace, rstr "of", plusCls pyIsSpace,
        .group 1 (plusCls letterCls), plusCls pyIsSpace,
        ropt (.group 2 digits12), ropt (rlit ','), wsStar, .group 3 digits4]

/-- Source date pattern 2: `(\d{1,2})[-\/.](\d{1,2})[-\/.](\d{4})`. -/
def datePattern2 : RE :=
  rcat [.group 1 digits12, .cls dateSep, .group 2 digits12, .cls dateSep,
        .group 3 digits4]

/-- Source date pattern 3: `(\d{4})[-\/.](\d{1,2})[-\/.](\d{1,2})`. -/
def datePattern3 : RE :=
  rcat [.group 1 digits4, .cls dateSep, .group 2 digits12, .cls dateSep,
        .group 3 digits12]

/-- Source date pattern 4: `([A-Za-z]+)\s+(\d{1,2}),?\s*(\d{4})`. -/
def datePattern4 : RE :=
  rcat [.group 1 (plusCls letterCls), plusCls pyIsSpace, .group 2 digits12,
        ropt (rlit ','), wsStar, .group 3 digits4]

/-- The e x a c t raw text of source date pattern 1 (the date branch picks
its normalizer by inspecting this string). -/
def datePattern1Str : String :=
  "day\\s+of\\s+([A-Za-z]+)\\s+(\\d\x7b1,2\x7d)?,?\\s*(\\d\x7b4\x7d)"

/-- Raw text of source date pattern 2. -/
def datePattern2Str : String :=
  "(\\d\x7b1,2\x7d)[-\\/.](\\d\x7b1,2\x7d)[-\\/.](\\d\x7b4\x7d)"

/-- Raw text of source date pattern 3. -/
def datePattern3Str : String :=
  "(\\d\x7b4\x7d)[-\\/.](\\d\x7b1,2\x7d)[-\\/.](\\d\x7b1,2\x7d)"

/-- Raw text of source date pattern 4. -/
def datePattern4Str : String :=
  "([A-Za-z]+)\\s+(\\d\x7b1,2\x7d),?\\s*(\\d\x7b4\x7d)"

/-- One extracted field: `{'value': ..., 'confidence': ...}`. -/
structure FieldValue where
  value : String
  confidence : ℚ
  deriving DecidableEq, Repr

/-- The four structured fields built by `_extract_fields_from_text`. -/
structure ExtractionFields where
  license_number : FieldValue
  name_spouse1 : FieldValue
  name_spouse2 : FieldValue
  marriage_date : FieldValue
  deriving DecidableEq, Repr

/-- The outcome of `extract_text_from_image` (the external transcription
engine), as consumed by the assembler. -/
structure TranscriptionOutcome where
  text : String
  confidence : ℚ
  success : Bool
  error : Option String
  deriving DecidableEq, Repr

/-- The full record returned by `extract_marriage_license_fields`. -/
structure ExtractionResult where
  license_number : FieldValue
  name_spouse1 : FieldValue
  name_spouse2 : FieldValue
  marriage_date : FieldValue
  raw_text : String
  success : Bool
  error : Option String
  deriving DecidableEq, Repr

/-- An unset field, `{'value': '', 'confidence': 0.0}`. -/
def emptyField : FieldValue := ⟨"", 0⟩

/-- The license-number loop: try the three patterns in order and stop at the
first that matches anywhere in the text, returning `group(1)`. -/
def firstGroupMatch : List RE → List Char → Option (List Char)
  | [], _ => none
  | p :: rest, s =>
      match reSearch p s with
      | some (_, _, cs) => some (capOr cs 1)
      | none => firstGroupMatch rest s

/-- Source lines 185-198: the `license_number` field. -/
def licenseField (s : List Char) (b : ℚ) : FieldValue :=
  match firstGroupMatch [licensePattern1, licensePattern2, licensePattern3] s with
  | some v => ⟨⟨strTrim v⟩, b + 1/10⟩
  | none => emptyField

/-- Source lines 207-213: all candidates, pattern-then-match order. -/
def nameCandidates (s : List Char) : List (List Char) :=
  reFindAll namePattern1 s ++ reFindAll namePattern2 s ++ reFindAll namePattern3 s

/-- Source lines 210-213, one iteration of the `names` loop: trim the
candidate, append it when its length exceeds 2 and it was not kept before. -/
def keepStep (acc : List (List Char)) (m : List Char) : List (List Char) :=
  if 2 < (strTrim m).length && !(acc.contains (strTrim m)) then acc ++ [strTrim m]
  else acc

/-- Source lines 207-213: the `names` accumulator after the whole loop. -/
def keptNames (s : List Char) : List (List Char) :=
  (nameCandidates s).foldl keepStep []

/-- Source lines 215-224: the two spouse-name fields. -/
def nameFields (s : List Char) (b : ℚ) : FieldValue × FieldValue :=
  match keptNames s with
  | [] => (emptyField, emptyField)
  | [n1] => (⟨⟨n1⟩, b + 1/10⟩, emptyField)
  | n1 :: n2 :: _ => (⟨⟨n1⟩, b + 1/10⟩, ⟨⟨n2⟩, b + 1/10⟩)

/-- The date loop: first pattern (with its raw text) whose search matches. -/
def firstDateMatch : List (String × RE) → List Char → Option (String × Caps)
  | [], _ => none
  | (ps, p) :: rest, s =>
      match reSearch p s with
      | some (_, _, cs) => some (ps, cs)
      | none => firstDateMatch rest s

/-- Python `f"{x}"` applied to an optional group: `None` prints as `"None"`. -/
def pyFormatGroup (o : Option (List Char)) : List Char := o.getD "None".data

/-- Python `x.zfill(2)` applied to an optional group: calling a method on
`None` raises `AttributeError`, modelled as `none`. -/
def pyZfillGroup (o : Option (List Char)) : Option (List Char) := o.map zfill2

/-- Source lines 236-245: the normalized `date_value` string built from a
date-pattern hit.  The branch on the pattern's raw text is kept exactly as
written: `'day of' in pattern` (which no pattern string satisfies, since
they spell `day\s+of`), then `pattern.startswith(r'(\d{4})')`, else the
generic day-month-year normalizer, whose `match.group(2).zfill(2)` raises
(`none`) when group 2 is absent. -/
def dateValueOfMatch (ps : String) (cs : Caps) : Option (List Char) :=
  if hasSub "day of".data ps.data then
    some (pyFormatGroup (capOf cs 3) ++ "-".data ++ pyFormatGroup (capOf cs 1) ++
      "-".data ++ zfill2 (match capOf cs 2 with
        | none => "01".data
        | some d => if d.isEmpty then "01".data else d))
  else if datePattern3Str.data.isPrefixOf ps.data then
    (pyZfillGroup (capOf cs 2)).bind (fun d2 =>
      (pyZfillGroup (capOf cs 3)).map (fun d3 =>
        pyFormatGroup (capOf cs 1) ++ "-".data ++ d2 ++ "-".data ++ d3))
  else
    (pyZfillGroup (capOf cs 1)).bind (fun d1 =>
      (pyZfillGroup (capOf cs 2)).map (fun d2 =>
        pyFormatGroup (capOf cs 3) ++ "-".data ++ d1 ++ "-".data ++ d2))

/-- Source lines 227-251: the `marriage_date` field: first matching pattern,
normalized value, confidence `base + 0.1`; `none` when normalization
raises. -/
def dateField (s : List Char) (b : ℚ) : Option FieldValue :=
  match firstDateMatch
      [(datePattern1Str, datePattern1), (datePattern2Str, datePattern2),
       (datePattern3Str, datePattern3), (datePattern4Str, datePattern4)] s with
  | none => some emptyField
  | some (ps, cs) => (dateValueOfMatch ps cs).map (fun v => ⟨⟨v⟩, b + 1/10⟩)

/-- Source `_extract_fields_from_text(text, base_confidence)`; `none` models
the date normalizer's reachable `AttributeError`. -/
def extract_fields_from_text (s : List Char) (b : ℚ) : Option ExtractionFields :=
  (dateField s b).map (fun md =>
    { license_number := licenseField s b
      name_spouse1 := (nameFields s b).1
      name_spouse2 := (nameFields s b).2
      marriage_date := md })

/-- The four keyword literals of `_calculate_confidence`. -/
def confidenceKeywords : List String := ["marriage", "license", "application", "affidavit"]

/-- Source `_calculate_confidence(text)` (lines 109-140), with floats as
exact rationals. -/
def calculate_confidence (s : List Char) : ℚ :=
  if s.isEmpty || (strTrim s).isEmpty then 0
  else
    let c1 : ℚ := 1/2
    let c2 := if 10 < s.length then c1 + 1/10 else c1
    let c3 := if 50 < s.length then c2 + 1/10 else c2
    let c4 := if confidenceKeywords.any (fun w => hasSub w.data (s.map Char.toLower))
      then c3 + 1/5 else c3
    let c5 := if s.any Char.isDigit then c4 + 1/10 else c4
    let c6 := if s.any Char.isUpper then c5 + 1/10 else c5
    let c7 := if s.length < 5 then c6 - 1/5 else c6
    let toks := pySplitWs s
    let c8 := if toks.dedup.length < 3 ∧ 5 < toks.length then c7 - 1/10 else c7
    min 1 (max 0 c8)

/-- Source `extract_marriage_license_fields` from the transcription outcome
on (lines 151-171): propagate failure without extraction, otherwise extract
from `outcome.text` at base `outcome.confidence`. -/
def extract_marriage_license_fields (o : TranscriptionOutcome) : Option ExtractionResult :=
  if o.success then
    (extract_fields_from_text o.text.data o.confidence).map (fun f =>
      { license_number := f.license_number
        name_spouse1 := f.name_spouse1
        name_spouse2 := f.name_spouse2
        marriage_date := f.marriage_date
        raw_text := o.text
        success := true
        error := none })
  else
    some { license_number := emptyField
           name_spouse1 := emptyField
           name_spouse2 := emptyField
           marriage_date := emptyField
           raw_text := o.text
           success := false
           error := o.error }

/-! ### Support lemmas: trimming and character classes -/

theorem dropWhile_eq_self_of_not_head {l : List Char}
    (h : ∀ c ∈ l, pyIsSpace c = false) : l.dropWhile pyIsSpace = l := by
  cases l with
  | nil => rfl
  | cons a t => simp [List.dropWhile_cons, h a (by simp)]

theorem strTrim_eq_self {l : List Char} (h : ∀ c ∈ l, pyIsSpace c = false) :
    strTrim l = l := by
  unfold strTrim
  rw [dropWhile_eq_self_of_not_head h,
      dropWhile_eq_self_of_not_head (fun c hc => h c (List.mem_reverse.mp hc)),
      List.reverse_reverse]

theorem strTrim_eq_nil_of_all {l : List Char} (h : ∀ c ∈ l, pyIsSpace c = true) :
    strTrim l = [] := by
  unfold strTrim
  rw [List.dropWhile_eq_nil_iff.mpr h]
  rfl

theorem alnumDash_not_space {c : Char} (h : alnumDash c = true) : pyIsSpace c = false := by
  by_contra hc
  rw [Bool.not_eq_false] at hc
  simp only [pyIsSpace, Bool.or_eq_true, beq_iff_eq] at hc
  rcases hc with ((((rfl | rfl) | rfl) | rfl) | rfl) | rfl <;> exact absurd h (by decide)

theorem digitCls_not_space {c : Char} (h : digitCls c = true) : pyIsSpace c = false := by
  by_contra hc
  rw [Bool.not_eq_false] at hc
  simp only [pyIsSpace, Bool.or_eq_true, beq_iff_eq] at hc
  rcases hc with ((((rfl | rfl) | rfl) | rfl) | rfl) | rfl <;> exact absurd h (by decide)

theorem all_take_of_le_takeWhile {p : Char → Bool} {l : List Char} {k : Nat}
    (hk : k ≤ (l.takeWhile p).length) : ∀ c ∈ l.take k, p c = true := by
  intro c hc
  obtain ⟨u, hu⟩ := (List.takeWhile_prefix (l := l) p)
  rw [← hu, List.take_append_of_le_length hk] at hc
  exact List.mem_takeWhile_imp (List.take_subset _ _ hc)

/-! ### Engine lemmas: inverting `reRuns` membership -/

/-- Patterns built without capturing groups. -/
def hasNoGroup : RE → Bool
  | .group _ _ => false
  | .cat a b => hasNoGroup a && hasNoGroup b
  | .alt a b => hasNoGroup a && hasNoGroup b
  | _ => true

theorem mem_reRuns_cls {p : Char → Bool} {s : List Char} {i : Nat} {cs : Caps}
    {jc : Nat × Caps} (h : jc ∈ reRuns (.cls p) s i cs) :
    jc = (i + 1, cs) ∧ ∃ c t, s.drop i = c :: t ∧ p c = true := by
  unfold reRuns at h
  split at h
  · simp at h
  · rename_i c rest hdp
    split at h
    · rename_i hpc
      simp only [List.mem_singleton] at h
      exact ⟨h, c, rest, hdp, hpc⟩
    · simp at h

theorem mem_reRuns_starCls {g : Bool} {p : Char → Bool} {s : List Char} {i : Nat}
    {cs : Caps} {jc : Nat × Caps} (h : jc ∈ reRuns (.starCls g p) s i cs) :
    jc.2 = cs ∧ i ≤ jc.1 ∧ jc.1 - i ≤ ((s.drop i).takeWhile p).length := by
  simp only [reRuns] at h
  split at h <;>
    · rw [List.mem_map] at h
      obtain ⟨k, hk, rfl⟩ := h
      rw [List.mem_range] at hk
      refine ⟨rfl, ?_, ?_⟩ <;> · dsimp only; omega

theorem mem_reRuns_cat {a b : RE} {s : List Char} {i : Nat} {cs : Caps}
    {jc : Nat × Caps} (h : jc ∈ reRuns (.cat a b) s i cs) :
    ∃ x ∈ reRuns a s i cs, jc ∈ reRuns b s x.1 x.2 := by
  unfold reRuns at h
  exact List.mem_flatMap.mp h

theorem mem_reRuns_group {n : Nat} {a : RE} {s : List Char} {i : Nat} {cs : Caps}
    {jc : Nat × Caps} (h : jc ∈ reRuns (.group n a) s i cs) :
    ∃ x ∈ reRuns a s i cs, jc = (x.1, (n, strSlice s i x.1) :: x.2) := by
  unfold reRuns at h
  rw [List.mem_map] at h
  obtain ⟨x, hx, rfl⟩ := h
  exact ⟨x, hx, rfl⟩

theorem caps_of_noGroup {r : RE} (hr : hasNoGroup r = true) :
    ∀ {s : List Char} {i : Nat} {cs : Caps} {jc : Nat × Caps},
      jc ∈ reRuns r s i cs → jc.2 = cs := by
  induction r with
  | eps =>
    intro s i cs jc h
    simp only [reRuns, List.mem_singleton] at h
    rw [h]
  | cls p =>
    intro s i cs jc h
    exact (mem_reRuns_cls h).1 ▸ rfl
  | starCls g p =>
    intro s i cs jc h
    exact (mem_reRuns_starCls h).1
  | cat a b iha ihb =>
    intro s i cs jc h
    simp only [hasNoGroup, Bool.and_eq_true] at hr
    obtain ⟨x, hx, hjc⟩ := mem_reRuns_cat h
    rw [ihb hr.2 hjc, iha hr.1 hx]
  | alt a b iha ihb =>
    intro s i cs jc h
    simp only [hasNoGroup, Bool.and_eq_true] at hr
    unfold reRuns at h
    rcases List.mem_append.mp h with h | h
    · exact iha hr.1 h
    · exact ihb hr.2 h
  | group n a ih => simp [hasNoGroup] at hr
  | wordB =>
    intro s i cs jc h
    unfold reRuns at h
    split at h <;> simp at h
    rw [h]

theorem mem_reRuns_plusCls {p : Char → Bool} {s : List Char} {i : Nat} {cs : Caps}
    {jc : Nat × Caps} (h : jc ∈ reRuns (plusCls p) s i cs) :
    jc.2 = cs ∧ i < jc.1 ∧ strSlice s i jc.1 ≠ [] ∧
      ∀ c ∈ strSlice s i jc.1, p c = true := by
  obtain ⟨x, hx, hjc⟩ := mem_reRuns_cat h
  obtain ⟨hx1, c, t, hdp, hpc⟩ := mem_reRuns_cls hx
  rw [hx1] at hjc
  obtain ⟨hcs, hle, hlen⟩ := mem_reRuns_starCls hjc
  dsimp only at hcs hle hlen
  have hdp1 : s.drop (i + 1) = t := by
    have h1 : s.drop (i + 1) = (s.drop i).drop 1 := (List.drop_drop 1 i s).symm
    rw [h1, hdp]
    rfl
  rw [hdp1] at hlen
  have hslice : strSlice s i jc.1 = c :: (t.take (jc.1 - (i + 1))) := by
    unfold strSlice
    rw [hdp]
    have h2 : jc.1 - i = (jc.1 - (i + 1)) + 1 := by omega
    rw [h2, List.take_succ_cons]
  refine ⟨hcs, by omega, ?_, ?_⟩
  · rw [hslice]; exact List.cons_ne_nil _ _
  · intro d hd
    rw [hslice] at hd
    rcases List.mem_cons.mp hd with rfl | hd
    · exact hpc
    · exact all_take_of_le_takeWhile hlen d hd

theorem searchAux_some {r : RE} {s : List Char} :
    ∀ {k i a bnd : Nat} {cs : Caps}, searchAux r s k i = some (a, bnd, cs) →
      (bnd, cs) ∈ reRuns r s a [] := by
  intro k
  induction k with
  | zero => intro i a bnd cs h; simp [searchAux] at h
  | succ k ih =>
    intro i a bnd cs h
    unfold searchAux at h
    rcases hr : reRuns r s i [] with _ | ⟨jc, tl⟩ <;> rw [hr] at h
    · exact ih h
    · obtain ⟨rfl, h2⟩ : i = a ∧ (jc.1, jc.2) = (bnd, cs) := by
        have := Option.some.inj h
        exact ⟨congrArg Prod.fst this, congrArg Prod.snd this⟩
      rw [hr, ← h2]
      exact List.mem_cons_self _ _

theorem reSearch_some {r : RE} {s : List Char} {a bnd : Nat} {cs : Caps}
    (h : reSearch r s = some (a, bnd, cs)) : (bnd, cs) ∈ reRuns r s a [] :=
  searchAux_some h

/-- Capture soundness for the license patterns' common shape: a group-free
lead-in followed by `group 1` over a one-or-more character class.  On any
search hit, group 1 captured a non-empty string of characters of that
class. -/
theorem license_group_spec {pre : RE} {P : Char → Bool} (hpre : hasNoGroup pre = true)
    {s : List Char} {a bnd : Nat} {cs : Caps}
    (h : reSearch (.cat pre (.group 1 (plusCls P))) s = some (a, bnd, cs)) :
    ∃ w, capOr cs 1 = w ∧ w ≠ [] ∧ ∀ c ∈ w, P c = true := by
  obtain ⟨x, hx, h2⟩ := mem_reRuns_cat (reSearch_some h)
  have hx2 : x.2 = [] := caps_of_noGroup hpre hx
  obtain ⟨y, hy, heq⟩ := mem_reRuns_group h2
  obtain ⟨hy2, _, hne, hall⟩ := mem_reRuns_plusCls hy
  have hcs : cs = (1, strSlice s x.1 y.1) :: [] := by
    have := congrArg Prod.snd heq
    simp at this
    rw [this, hy2, hx2]
  refine ⟨strSlice s x.1 y.1, ?_, hne, hall⟩
  rw [hcs]
  rfl

/-! ### Field-level shape lemmas -/

theorem license_pattern_hit (pre : RE) (P : Char → Bool) (hpre : hasNoGroup pre = true)
    (hP : ∀ c, P c = true → pyIsSpace c = false) {s : List Char} {t : Nat × Nat × Caps}
    (h : reSearch (.cat pre (.group 1 (plusCls P))) s = some t) :
    capOr t.2.2 1 ≠ [] ∧ ∀ c ∈ capOr t.2.2 1, pyIsSpace c = false := by
  obtain ⟨a, bnd, cs⟩ := t
  obtain ⟨w, hw, hne, hall⟩ := license_group_spec hpre h
  dsimp only
  rw [hw]
  exact ⟨hne, fun c hc => hP c (hall c hc)⟩

theorem firstGroupMatch_cons (p : RE) (ps : List RE) (s : List Char) :
    firstGroupMatch (p :: ps) s =
      match reSearch p s with
      | some (_, _, cs) => some (capOr cs 1)
      | none => firstGroupMatch ps s := rfl

theorem license_match_spec {s v : List Char}
    (h : firstGroupMatch [licensePattern1, licensePattern2, licensePattern3] s = some v) :
    v ≠ [] ∧ ∀ c ∈ v, pyIsSpace c = false := by
  rw [firstGroupMatch_cons] at h
  split at h
  · rename_i a bnd cs h1
    obtain rfl : capOr cs 1 = v := Option.some.inj h
    exact license_pattern_hit licensePattern1Pre alnumDash rfl (fun c => alnumDash_not_space) h1
  · rw [firstGroupMatch_cons] at h
    split at h
    · rename_i a bnd cs h2
      obtain rfl : capOr cs 1 = v := Option.some.inj h
      exact license_pattern_hit licensePattern2Pre alnumDash rfl (fun c => alnumDash_not_space) h2
    · rw [firstGroupMatch_cons] at h
      split at h
      · rename_i a bnd cs h3
        obtain rfl : capOr cs 1 = v := Option.some.inj h
        exact license_pattern_hit licensePattern3Pre digitCls rfl (fun c => digitCls_not_space) h3
      · simp [firstGroupMatch] at h

theorem licenseField_inv (s : List Char) (b : ℚ) :
    licenseField s b = emptyField ∨
      ∃ v : List Char, licenseField s b = ⟨⟨v⟩, b + 1/10⟩ ∧ v ≠ [] := by
  unfold licenseField
  cases hm : firstGroupMatch [licensePattern1, licensePattern2, licensePattern3] s with
  | none => exact Or.inl rfl
  | some v =>
    obtain ⟨hne, hns⟩ := license_match_spec hm
    refine Or.inr ⟨strTrim v, rfl, ?_⟩
    rw [strTrim_eq_self hns]
    exact hne

theorem foldl_keepStep_inv :
    ∀ (cands acc : List (List Char)), (∀ x ∈ acc, 2 < x.length) →
      ∀ x ∈ cands.foldl keepStep acc, 2 < x.length := by
  intro cands
  induction cands with
  | nil => intro acc hacc x hx; exact hacc x hx
  | cons m rest ih =>
    intro acc hacc x hx
    rw [List.foldl_cons] at hx
    refine ih _ ?_ x hx
    intro y hy
    simp only [keepStep] at hy
    split at hy
    · rename_i hcond
      rcases List.mem_append.mp hy with hy | hy
      · exact hacc y hy
      · simp only [List.mem_singleton] at hy
        subst hy
        simp only [Bool.and_eq_true, decide_eq_true_eq] at hcond
        exact hcond.1
    · exact hacc y hy

theorem mem_keptNames_length {s n : List Char} (h : n ∈ keptNames s) : 2 < n.length :=
  foldl_keepStep_inv (nameCandidates s) [] (by simp) n h

theorem nameFields_inv (s : List Char) (b : ℚ) :
    ((nameFields s b).1 = emptyField ∨
      ∃ n : List Char, (nameFields s b).1 = ⟨⟨n⟩, b + 1/10⟩ ∧ n ≠ []) ∧
    ((nameFields s b).2 = emptyField ∨
      ∃ n : List Char, (nameFields s b).2 = ⟨⟨n⟩, b + 1/10⟩ ∧ n ≠ []) := by
  have hne : ∀ n : List Char, n ∈ keptNames s → n ≠ [] := by
    intro n hn hnil
    have := mem_keptNames_length hn
    rw [hnil] at this
    simp at this
  unfold nameFields
  rcases hk : keptNames s with _ | ⟨n1, _ | ⟨n2, t⟩⟩
  · exact ⟨Or.inl rfl, Or.inl rfl⟩
  · exact ⟨Or.inr ⟨n1, rfl, hne n1 (by rw [hk]; simp)⟩, Or.inl rfl⟩
  · exact ⟨Or.inr ⟨n1, rfl, hne n1 (by rw [hk]; simp)⟩,
      Or.inr ⟨n2, rfl, hne n2 (by rw [hk]; simp)⟩⟩

theorem dash_concat_ne_nil (A B C : List Char) :
    A ++ "-".data ++ B ++ "-".data ++ C ≠ [] := by
  intro h
  have hlen := congrArg List.length h
  have hd : ("-".data).length = 1 := rfl
  simp only [List.length_append, List.length_nil, hd] at hlen
  omega

theorem dateValueOfMatch_ne_nil {ps : String} {cs : Caps} {v : List Char}
    (h : dateValueOfMatch ps cs = some v) : v ≠ [] := by
  unfold dateValueOfMatch at h
  split at h
  · obtain rfl := Option.some.inj h
    exact dash_concat_ne_nil _ _ _
  · split at h
    · cases hz2 : pyZfillGroup (capOf cs 2) with
      | none => rw [hz2, Option.none_bind] at h; exact absurd h (by simp)
      | some d2 =>
        rw [hz2, Option.some_bind] at h
        cases hz3 : pyZfillGroup (capOf cs 3) with
        | none => rw [hz3] at h; exact absurd h (by simp)
        | some d3 =>
          rw [hz3, Option.map_some'] at h
          obtain rfl := Option.some.inj h
          exact dash_concat_ne_nil _ _ _
    · cases hz1 : pyZfillGroup (capOf cs 1) with
      | none => rw [hz1, Option.none_bind] at h; exact absurd h (by simp)
      | some d1 =>
        rw [hz1, Option.some_bind] at h
        cases hz2 : pyZfillGroup (capOf cs 2) with
        | none => rw [hz2] at h; exact absurd h (by simp)
        | some d2 =>
          rw [hz2, Option.map_some'] at h
          obtain rfl := Option.some.inj h
          exact dash_concat_ne_nil _ _ _

theorem dateField_inv (s : List Char) (b : ℚ) :
    ∀ md : FieldValue, dateField s b = some md →
      md = emptyField ∨ ∃ v : List Char, md = ⟨⟨v⟩, b + 1/10⟩ ∧ v ≠ [] := by
  intro md h
  unfold dateField at h
  split at h
  · exact Or.inl (Option.some.inj h).symm
  · rename_i ps cs hm
    cases hv : dateValueOfMatch ps cs with
    | none => rw [hv] at h; exact absurd h (by simp)
    | some v =>
      rw [hv, Option.map_some'] at h
      exact Or.inr ⟨v, (Option.some.inj h).symm, dateValueOfMatch_ne_nil hv⟩

/-- A field of either allowed shape satisfies the empty-value pairing. -/
theorem pairing_of_shape {fv : FieldValue} {b : ℚ}
    (h : fv = emptyField ∨ ∃ v : List Char, fv = ⟨⟨v⟩, b + 1/10⟩ ∧ v ≠ []) :
    fv.value = "" → fv.confidence = 0 := by
  rcases h with rfl | ⟨v, rfl, hv⟩
  · intro _; rfl
  · intro hval
    exact absurd (congrArg String.data hval) hv

/-- A field of either allowed shape has confidence `b + 1/10` when set. -/
theorem conf_of_shape {fv : FieldValue} {b : ℚ}
    (h : fv = emptyField ∨ ∃ v : List Char, fv = ⟨⟨v⟩, b + 1/10⟩ ∧ v ≠ []) :
    fv.value ≠ "" → fv.confidence = b + 1/10 := by
  rcases h with rfl | ⟨v, rfl, hv⟩
  · intro h'; exact absurd rfl h'
  · intro _; rfl

/-! ### Claim theorems -/

theorem clamp01_bounds (x : ℚ) : 0 ≤ min 1 (max 0 x) ∧ min 1 (max 0 x) ≤ 1 :=
  ⟨le_min zero_le_one (le_max_left 0 x), min_le_left 1 _⟩

/-- C3: for every input text, the confidence estimator returns a value
between 0.0 and 1.0 inclusive — the final sum of all bonus/penalty rules is
clamped to [0.0, 1.0] (and the blank-text branch returns 0.0). -/
theorem c3_confidence_bounds (s : List Char) :
    0 ≤ calculate_confidence s ∧ calculate_confidence s ≤ 1 := by
  unfold calculate_confidence
  split
  · norm_num
  · exact clamp01_bounds _

/-- C8: for every input text that is empty or consists only of whitespace,
the confidence estimator returns 0.0 immediately; in particular
`estimate("") = 0` and `estimate("   ") = 0`. -/
theorem c8_blank_text_zero :
    (∀ s : List Char, (∀ c ∈ s, pyIsSpace c = true) → calculate_confidence s = 0) ∧
    calculate_confidence "".data = 0 ∧ calculate_confidence "   ".data = 0 := by
  refine ⟨?_, rfl, rfl⟩
  intro s hs
  have h1 : (strTrim s).isEmpty = true := by rw [strTrim_eq_nil_of_all hs]; rfl
  unfold calculate_confidence
  rw [if_pos (by rw [Bool.or_eq_true]; exact Or.inr h1)]

theorem c8_blank_text_zero_witness :
    (∀ c ∈ "  \t".data, pyIsSpace c = true) ∧ calculate_confidence "  \t".data = 0 :=
  ⟨by decide, c8_blank_text_zero.1 _ (by decide)⟩

/-- C4: for every transcription outcome with `success = false`, the
assembled result has all four fields `{"", 0.0}`, `raw_text` the outcome's
text and `error` the outcome's error, whatever the text is — the field
extractor is not invoked (the witness text is one on which the extractor
would raise). -/
theorem c4_failure_short_circuit (o : TranscriptionOutcome) (h : o.success = false) :
    extract_marriage_license_fields o =
      some ⟨emptyField, emptyField, emptyField, emptyField, o.text, false, o.error⟩ := by
  unfold extract_marriage_license_fields
  rw [h]
  rfl

theorem c4_failure_short_circuit_witness :
    (⟨"day of June 1950", 7/10, false, some "TrOCR model not loaded"⟩ :
      TranscriptionOutcome).success = false ∧
    extract_marriage_license_fields
        ⟨"day of June 1950", 7/10, false, some "TrOCR model not loaded"⟩ =
      some ⟨emptyField, emptyField, emptyField, emptyField, "day of June 1950", false,
        some "TrOCR model not loaded"⟩ :=
  ⟨rfl, c4_failure_short_circuit _ rfl⟩

/-- C1 (code bug): contrary to the claim, on `"15th day of June, 1950"` no
date pattern matches (pattern 1 demands whitespace after the month word, so
the comma blocks it), every field stays `{"", 0.0}`, and the `'day of'`
normalizer branch that would default the day to `"01"` is unreachable: the
pattern's raw text spells `day\s+of`, never the literal `day of`. -/
theorem c1_scenario_d_code_eval :
    (∀ b : ℚ, extract_fields_from_text "15th day of June, 1950".data b =
      some ⟨emptyField, emptyField, emptyField, emptyField⟩) ∧
    reSearch datePattern1 "15th day of June, 1950".data = none ∧
    hasSub "day of".data datePattern1Str.data = false :=
  ⟨fun _ => rfl, by decide, by decide⟩

/-- C10: name pattern 1 is case-insensitive and unanchored, so the `i`
inside `"Hi"` starts a self-identification match and
`name_spouse1 = {"Jane Doe", b + 0.1}`. -/
theorem c10_name_pattern_unanchored (b : ℚ) :
    extract_fields_from_text "Hi, Jane Doe, of Springfield".data b =
      some ⟨emptyField, ⟨"Jane Doe", b + 1/10⟩, emptyField, emptyField⟩ := rfl

/-- C7 (Scenario B): on `"marriage license application no. 12345"` the
estimator returns exactly 0.9 (base 0.5, +0.1 length, +0.2 keyword, +0.1
digit; no length-over-50 or upper-case bonus), and license pattern 1
matches with value `"12345"` and confidence 0.9 + 0.1 = 1.0, unclamped by
the extractor. -/
theorem c7_scenario_b :
    calculate_confidence "marriage license application no. 12345".data = 9/10 ∧
    (extract_fields_from_text "marriage license application no. 12345".data (9/10)).map
      (fun f => f.license_number) = some ⟨"12345", 1⟩ := by
  constructor
  · have h : calculate_confidence "marriage license application no. 12345".data =
        min 1 (max 0 (1/2 + 1/10 + 1/5 + 1/10 : ℚ)) := rfl
    rw [h]
    norm_num
  · have h : (extract_fields_from_text "marriage license application no. 12345".data
        (9/10)).map (fun f => f.license_number) = some ⟨"12345", 9/10 + 1/10⟩ := rfl
    rw [h]
    norm_num

theorem extract_fields_pairing (s : List Char) (b : ℚ) (f : ExtractionFields)
    (h : extract_fields_from_text s b = some f) :
    (f.license_number.value = "" → f.license_number.confidence = 0) ∧
    (f.name_spouse1.value = "" → f.name_spouse1.confidence = 0) ∧
    (f.name_spouse2.value = "" → f.name_spouse2.confidence = 0) ∧
    (f.marriage_date.value = "" → f.marriage_date.confidence = 0) := by
  unfold extract_fields_from_text at h
  cases hd : dateField s b with
  | none => rw [hd] at h; exact absurd h (by simp)
  | some md =>
    rw [hd, Option.map_some'] at h
    obtain rfl := Option.some.inj h
    exact ⟨pairing_of_shape (licenseField_inv s b), pairing_of_shape (nameFields_inv s b).1,
      pairing_of_shape (nameFields_inv s b).2, pairing_of_shape (dateField_inv s b md hd)⟩

/-- C2: in every record the extractor or the assembler actually produces,
every field with empty value carries confidence 0.0. -/
theorem c2_empty_value_zero_confidence :
    (∀ (s : List Char) (b : ℚ) (f : ExtractionFields),
        extract_fields_from_text s b = some f →
        (f.license_number.value = "" → f.license_number.confidence = 0) ∧
        (f.name_spouse1.value = "" → f.name_spouse1.confidence = 0) ∧
        (f.name_spouse2.value = "" → f.name_spouse2.confidence = 0) ∧
        (f.marriage_date.value = "" → f.marriage_date.confidence = 0)) ∧
    (∀ (o : TranscriptionOutcome) (r : ExtractionResult),
        extract_marriage_license_fields o = some r →
        (r.license_number.value = "" → r.license_number.confidence = 0) ∧
        (r.name_spouse1.value = "" → r.name_spouse1.confidence = 0) ∧
        (r.name_spouse2.value = "" → r.name_spouse2.confidence = 0) ∧
        (r.marriage_date.value = "" → r.marriage_date.confidence = 0)) := by
  refine ⟨extract_fields_pairing, ?_⟩
  intro o r h
  unfold extract_marriage_license_fields at h
  split at h
  · cases he : extract_fields_from_text o.text.data o.confidence with
    | none => rw [he] at h; exact absurd h (by simp)
    | some f =>
      rw [he, Option.map_some'] at h
      obtain rfl := Option.some.inj h
      exact extract_fields_pairing _ _ _ he
  · obtain rfl := Option.some.inj h
    exact ⟨fun _ => rfl, fun _ => rfl, fun _ => rfl, fun _ => rfl⟩

theorem c2_empty_value_zero_confidence_witness :
    (extract_marriage_license_fields ⟨"", 0, false, none⟩ =
      some ⟨emptyField, emptyField, emptyField, emptyField, "", false, none⟩) ∧
    ((⟨emptyField, emptyField, emptyField, emptyField, "", false, none⟩ :
        ExtractionResult).license_number.value = "") ∧
    (⟨emptyField, emptyField, emptyField, emptyField, "", false, none⟩ :
        ExtractionResult).license_number.confidence = 0 :=
  ⟨rfl, rfl, (c2_empty_value_zero_confidence.2 ⟨"", 0, false, none⟩ _ rfl).1 rfl⟩

/-- C6: whenever a license-number, name or date pattern matched (the field
is set, i.e. its value is non-empty), the field's confidence is exactly
`base + 0.1`, with no re-clamping; at base 19/20 > 0.9 the license
confidence 19/20 + 1/10 exceeds 1. -/
theorem c6_unclamped_confidence :
    (∀ (s : List Char) (b : ℚ) (f : ExtractionFields),
        extract_fields_from_text s b = some f →
        (f.license_number.value ≠ "" → f.license_number.confidence = b + 1/10) ∧
        (f.name_spouse1.value ≠ "" → f.name_spouse1.confidence = b + 1/10) ∧
        (f.name_spouse2.value ≠ "" → f.name_spouse2.confidence = b + 1/10) ∧
        (f.marriage_date.value ≠ "" → f.marriage_date.confidence = b + 1/10)) ∧
    ((extract_fields_from_text "application no. 77".data (19/20)).map
        (fun f => f.license_number.confidence) = some (19/20 + 1/10) ∧
      (9/10 : ℚ) < 19/20 ∧ (1 : ℚ) < 19/20 + 1/10) := by
  constructor
  · intro s b f h
    unfold extract_fields_from_text at h
    cases hd : dateField s b with
    | none => rw [hd] at h; exact absurd h (by simp)
    | some md =>
      rw [hd, Option.map_some'] at h
      obtain rfl := Option.some.inj h
      exact ⟨conf_of_shape (licenseField_inv s b), conf_of_shape (nameFields_inv s b).1,
        conf_of_shape (nameFields_inv s b).2, conf_of_shape (dateField_inv s b md hd)⟩
  · exact ⟨rfl, by norm_num, by norm_num⟩

theorem c6_unclamped_confidence_witness :
    (extract_fields_from_text "application no. 77".data 0 =
      some ⟨⟨"77", 0 + 1/10⟩, emptyField, emptyField, emptyField⟩) ∧
    ((⟨⟨"77", 0 + 1/10⟩, emptyField, emptyField, emptyField⟩ :
        ExtractionFields).license_number.value ≠ "") ∧
    (⟨⟨"77", 0 + 1/10⟩, emptyField, emptyField, emptyField⟩ :
        ExtractionFields).license_number.confidence = 0 + 1/10 :=
  ⟨rfl, by decide, (c6_unclamped_confidence.1 "application no. 77".data 0 _ rfl).1 (by decide)⟩

/-- C9: the third license pattern needs no period after `no` and no word
boundary: whenever the first two patterns fail and the third one hits, the
field is the captured digit run at confidence `base + 0.1`; in particular
`"piano 123"` yields `{"123", b + 0.1}` from the `no` inside `"piano"`. -/
theorem c9_third_pattern_loose :
    (∀ (s : List Char) (b : ℚ) (a bnd : Nat) (cs : Caps),
        reSearch licensePattern1 s = none → reSearch licensePattern2 s = none →
        reSearch licensePattern3 s = some (a, bnd, cs) →
        licenseField s b = ⟨⟨strTrim (capOr cs 1)⟩, b + 1/10⟩) ∧
    (∀ b : ℚ, extract_fields_from_text "piano 123".data b =
      some ⟨⟨"123", b + 1/10⟩, emptyField, emptyField, emptyField⟩) := by
  constructor
  · intro s b a bnd cs h1 h2 h3
    unfold licenseField
    rw [firstGroupMatch_cons, h1, firstGroupMatch_cons, h2, firstGroupMatch_cons, h3]
  · intro b
    rfl

theorem c9_third_pattern_loose_witness :
    reSearch licensePattern1 "piano 123".data = none ∧
    reSearch licensePattern2 "piano 123".data = none ∧
    reSearch licensePattern3 "piano 123".data = some (3, 9, [(1, "123".data)]) ∧
    licenseField "piano 123".data 0 =
      ⟨⟨strTrim (capOr [(1, "123".data)] 1)⟩, 0 + 1/10⟩ :=
  ⟨by decide, by decide, by decide,
    c9_third_pattern_loose.1 _ 0 3 9 _ (by decide) (by decide) (by decide)⟩

/-- Claim C5's candidate filter as the spec words it: walk the (already
trimmed) candidates in order, keeping one only when its length exceeds 2
and it has not already been kept — order-preserving de-duplication by exact
string equality. -/
def specKeepNames (seen : List (List Char)) : List (List Char) → List (List Char)
  | [] => []
  | c :: rest =>
      if 2 < c.length ∧ c ∉ seen then c :: specKeepNames (c :: seen) rest
      else specKeepNames seen rest

theorem specKeepNames_cons (seen : List (List Char)) (c : List Char)
    (rest : List (List Char)) :
    specKeepNames seen (c :: rest) =
      if 2 < c.length ∧ c ∉ seen then c :: specKeepNames (c :: seen) rest
      else specKeepNames seen rest := rfl

theorem specKeepNames_congr : ∀ (l : List (List Char)) {s1 s2 : List (List Char)},
    (∀ x, x ∈ s1 ↔ x ∈ s2) → specKeepNames s1 l = specKeepNames s2 l := by
  intro l
  induction l with
  | nil => intro s1 s2 _; rfl
  | cons c rest ih =>
    intro s1 s2 h
    rw [specKeepNames_cons, specKeepNames_cons]
    by_cases hc : 2 < c.length ∧ c ∉ s1
    · rw [if_pos hc, if_pos ⟨hc.1, fun hm => hc.2 ((h c).mpr hm)⟩]
      exact congrArg (List.cons c) (ih (fun x => by rw [List.mem_cons, List.mem_cons, h x]))
    · rw [if_neg hc, if_neg (fun hc2 => hc ⟨hc2.1, fun hm => hc2.2 ((h c).mp hm)⟩)]
      exact ih h

theorem keepStep_cond_iff (acc : List (List Char)) (m : List Char) :
    (decide (2 < (strTrim m).length) && !(acc.contains (strTrim m))) = true ↔
      (2 < (strTrim m).length ∧ strTrim m ∉ acc) := by
  rw [Bool.and_eq_true, decide_eq_true_eq, Bool.not_eq_true']
  constructor
  · rintro ⟨h1, h2⟩
    refine ⟨h1, fun hm => ?_⟩
    have h3 : acc.contains (strTrim m) = true := List.elem_iff.mpr hm
    rw [h3] at h2
    exact absurd h2 (by decide)
  · rintro ⟨h1, h2⟩
    refine ⟨h1, ?_⟩
    cases hcb : acc.contains (strTrim m) with
    | false => rfl
    | true => exact absurd (List.elem_iff.mp hcb) h2

theorem foldl_keepStep_eq_spec :
    ∀ (cands acc : List (List Char)),
      cands.foldl keepStep acc = acc ++ specKeepNames acc (cands.map strTrim) := by
  intro cands
  induction cands with
  | nil => intro acc; simp [specKeepNames]
  | cons m rest ih =>
    intro acc
    rw [List.foldl_cons, List.map_cons, specKeepNames_cons]
    by_cases hc : 2 < (strTrim m).length ∧ strTrim m ∉ acc
    · have hstep : keepStep acc m = acc ++ [strTrim m] := by
        unfold keepStep
        rw [if_pos ((keepStep_cond_iff acc m).mpr hc)]
      rw [hstep, if_pos hc, ih]
      have hseen : specKeepNames (acc ++ [strTrim m]) (rest.map strTrim) =
          specKeepNames (strTrim m :: acc) (rest.map strTrim) :=
        specKeepNames_congr (rest.map strTrim) (fun x => by
          rw [List.mem_append, List.mem_singleton, List.mem_cons]
          exact or_comm)
      rw [hseen, List.append_assoc]
      rfl
    · have hstep : keepStep acc m = acc := by
        unfold keepStep
        rw [if_neg (fun hx => hc ((keepStep_cond_iff acc m).mp hx))]
      rw [hstep, if_neg hc, ih]

/-- C5: the name extractor collects all matches of its three patterns in
pattern-then-match order, trims each, keeps exactly the candidates the
spec's filter keeps (length > 2, order-preserving de-duplication), assigns
the first kept candidate to `name_spouse1` and the second to
`name_spouse2`, leaves unfilled slots at `{"", 0.0}`; and on
`"I, Jane Doe, of Springfield"` only `"Jane Doe"` is found. -/
theorem c5_name_collection :
    (∀ s : List Char, keptNames s = specKeepNames [] ((nameCandidates s).map strTrim)) ∧
    (∀ (s : List Char) (b : ℚ) (f : ExtractionFields),
        extract_fields_from_text s b = some f →
        f.name_spouse1 = (((keptNames s)[0]?).map
          (fun n => (⟨⟨n⟩, b + 1/10⟩ : FieldValue))).getD emptyField ∧
        f.name_spouse2 = (((keptNames s)[1]?).map
          (fun n => (⟨⟨n⟩, b + 1/10⟩ : FieldValue))).getD emptyField) ∧
    (∀ b : ℚ, extract_fields_from_text "I, Jane Doe, of Springfield".data b =
      some ⟨emptyField, ⟨"Jane Doe", b + 1/10⟩, emptyField, emptyField⟩) := by
  refine ⟨?_, ?_, fun _ => rfl⟩
  · intro s
    unfold keptNames
    rw [foldl_keepStep_eq_spec, List.nil_append]
  · intro s b f h
    unfold extract_fields_from_text at h
    cases hd : dateField s b with
    | none => rw [hd] at h; exact absurd h (by simp)
    | some md =>
      rw [hd, Option.map_some'] at h
      obtain rfl := Option.some.inj h
      rcases hk : keptNames s with _ | ⟨n1, _ | ⟨n2, t⟩⟩ <;>
        simp [nameFields, hk, emptyField]

theorem c5_name_collection_witness :
    (extract_fields_from_text "I, Jane Doe, of Springfield".data 0 =
      some ⟨emptyField, ⟨"Jane Doe", 0 + 1/10⟩, emptyField, emptyField⟩) ∧
    ((⟨emptyField, ⟨"Jane Doe", 0 + 1/10⟩, emptyField, emptyField⟩ :
        ExtractionFields).name_spouse1 =
      (((keptNames "I, Jane Doe, of Springfield".data)[0]?).map
        (fun n => (⟨⟨n⟩, (0 : ℚ) + 1/10⟩ : FieldValue))).getD emptyField) :=
  ⟨rfl,
    (c5_name_collection.2.1 "I, Jane Doe, of Springfield".data 0 _ rfl).1⟩
